import Mathlib

/-!
Shallow embedding of the `imcraft` image-algebra library
(`src/imcraft/src/lib.rs`).

Numeric values (`f32` in the source) are modelled by `ℚ`, i.e. the
arithmetic of the source is taken exactly; image sources (the `Image`
trait) are modelled as functions `ℚ → ℚ → Pixel`.  Where a claim is
specifically about non-finite floating-point inputs (NaN, infinities)
a small inductive type `F32` extends the finite values, and the
operations on it follow the documented Rust semantics of `f32`
comparison and of the saturating `as` cast.
-/

/-- Struct `Pixel` from `lib.rs`: four channels `r g b a` (`f32`, modelled as `ℚ`). -/
structure Pixel where
  r : ℚ
  g : ℚ
  b : ℚ
  a : ℚ
deriving DecidableEq

/-- The fully transparent black pixel `Pixel { r: 0.0, g: 0.0, b: 0.0, a: 0.0 }`
returned by the out-of-bounds and zero-alpha paths of the source. -/
def Pixel.transparentBlack : Pixel := ⟨0, 0, 0, 0⟩

/-- A `[[f32; 3]; 3]` matrix from `lib.rs`, entry `mIJ` standing for `matrix[I][J]`. -/
structure Mat3 where
  m00 : ℚ
  m01 : ℚ
  m02 : ℚ
  m10 : ℚ
  m11 : ℚ
  m12 : ℚ
  m20 : ℚ
  m21 : ℚ
  m22 : ℚ
deriving DecidableEq

/-- The all-zero matrix `[[0.0; 3]; 3]`. -/
def Mat3.zero : Mat3 := ⟨0, 0, 0, 0, 0, 0, 0, 0, 0⟩

/-- The determinant of a 3×3 matrix by cofactor expansion along the first row —
exactly the expression `matrix[0][0] * adjoint[0][0] + matrix[0][1] * adjoint[1][0]
+ matrix[0][2] * adjoint[2][0]` computed in `invert` (`lib.rs` lines 218-219). -/
def Mat3.det (m : Mat3) : ℚ :=
  m.m00 * (m.m11 * m.m22 - m.m21 * m.m12)
    + m.m01 * (m.m12 * m.m20 - m.m22 * m.m10)
    + m.m02 * (m.m10 * m.m21 - m.m20 * m.m11)

/-- Function `invert` from `lib.rs` (lines 200-229): build the adjugate, compute the
determinant; if the determinant is zero return the all-zero matrix, otherwise
divide every adjugate entry by the determinant. -/
def invert (matrix : Mat3) : Mat3 :=
  let a00 := matrix.m11 * matrix.m22 - matrix.m21 * matrix.m12
  let a01 := matrix.m02 * matrix.m21 - matrix.m01 * matrix.m22
  let a02 := matrix.m01 * matrix.m12 - matrix.m11 * matrix.m02
  let a10 := matrix.m12 * matrix.m20 - matrix.m22 * matrix.m10
  let a11 := matrix.m00 * matrix.m22 - matrix.m02 * matrix.m20
  let a12 := matrix.m02 * matrix.m10 - matrix.m12 * matrix.m00
  let a20 := matrix.m10 * matrix.m21 - matrix.m20 * matrix.m11
  let a21 := matrix.m01 * matrix.m20 - matrix.m00 * matrix.m21
  let a22 := matrix.m00 * matrix.m11 - matrix.m10 * matrix.m01
  let determinant := matrix.m00 * a00 + matrix.m01 * a10 + matrix.m02 * a20
  if determinant = 0 then Mat3.zero
  else
    ⟨a00 / determinant, a01 / determinant, a02 / determinant,
     a10 / determinant, a11 / determinant, a12 / determinant,
     a20 / determinant, a21 / determinant, a22 / determinant⟩

/-- An image source: the `Image` trait's one capability `get(x, y) -> Pixel`,
modelled as a total function on (finite) coordinates. -/
abbrev ImageFn := ℚ → ℚ → Pixel

/-- Struct `Transform` from `lib.rs`: a child source and the stored matrix
(the inverse of the one supplied at construction). -/
structure Transform where
  image : ImageFn
  matrix : Mat3

/-- Method `Transform::transform` (`lib.rs` lines 104-108): apply the stored matrix to
`(x, y, 1)`, returning the child coordinates `(x2, y2)`. -/
def Transform.transform (t : Transform) (x y : ℚ) : ℚ × ℚ :=
  (x * t.matrix.m00 + y * t.matrix.m01 + t.matrix.m02,
   x * t.matrix.m10 + y * t.matrix.m11 + t.matrix.m12)

/-- Method `Transform::get` (`lib.rs` lines 112-115): map the coordinate, delegate to
the child. -/
def Transform.get (t : Transform) (x y : ℚ) : Pixel :=
  let p := t.transform x y
  t.image p.1 p.2

/-- Method `Image::transform` (`lib.rs` lines 14-22): wrap a source in a `Transform`
node storing `invert(matrix)`. -/
def Image.transform (image : ImageFn) (matrix : Mat3) : ImageFn :=
  fun x y => Transform.get ⟨image, invert matrix⟩ x y

/-- Source `Uniform` (`lib.rs` lines 82-96): `get` ignores the coordinates and returns
the configured color. -/
def Uniform.get (color : Pixel) : ImageFn :=
  fun _ _ => color

/-- Method `Join::get` (`lib.rs` lines 123-145): sample both children (`image1` is the
bottom layer, `image2` the top), compute the "over" alpha, guard against zero,
and blend each color channel. -/
def Join.get (image1 image2 : ImageFn) : ImageFn :=
  fun x y =>
    let px1 := image1 x y
    let px2 := image2 x y
    let a := px2.a + px1.a * (1 - px2.a)
    if a = 0 then Pixel.transparentBlack
    else
      let blend := fun v1 v2 => (v2 * px2.a + v1 * px1.a * (1 - px2.a)) / a
      ⟨blend px1.r px2.r, blend px1.g px2.g, blend px1.b px2.b, a⟩

/-- Struct `BufImage` (`lib.rs` lines 147-151): a raw byte raster (`Vec<u8>`, modelled
as a list of naturals, each entry intended to be a byte) plus dimensions. -/
structure BufImage where
  data : List ℕ
  width : ℕ
  height : ℕ

/-- The construction invariant established by `BufImage::open` (`lib.rs`
lines 153-166): the decoded RGBA8 raster holds exactly
`width * height * 4` bytes. -/
def BufImage.wf (img : BufImage) : Prop :=
  img.data.length = img.width * img.height * 4

/-- Byte channel to normalized channel: `self.data[idx] as f32 / 255.0`. -/
def byteToChannel (v : ℕ) : ℚ := (v : ℚ) / 255

/-- Expression `x.round() as usize` on a non-negative finite value: Rust `f32::round`
rounds half away from zero, which on `q ≥ 0` is `⌊q + 1/2⌋`. -/
def roundToCell (q : ℚ) : ℕ := (⌊q + 1 / 2⌋).toNat

/-- The stored pixel of cell `(x, y)` of a `BufImage`: the four bytes at
`idx = (y * width + x) * 4` (`lib.rs` lines 190-196), each divided by 255. -/
def BufImage.pixelAt (img : BufImage) (x y : ℕ) : Pixel :=
  let idx := (y * img.width + x) * 4
  ⟨byteToChannel (img.data.getD idx 0),
   byteToChannel (img.data.getD (idx + 1) 0),
   byteToChannel (img.data.getD (idx + 2) 0),
   byteToChannel (img.data.getD (idx + 3) 0)⟩

/-- Method `BufImage::get` (`lib.rs` lines 168-198) on finite coordinates: transparent
black for negative coordinates, round to the nearest cell, transparent black
outside `[0, width) × [0, height)`, otherwise the stored pixel. -/
def BufImage.get (img : BufImage) : ImageFn :=
  fun x y =>
    if x < 0 ∨ y < 0 then Pixel.transparentBlack
    else
      let xr := roundToCell x
      let yr := roundToCell y
      if img.width ≤ xr ∨ img.height ≤ yr then Pixel.transparentBlack
      else img.pixelAt xr yr

/-- A possibly non-finite `f32` value: NaN, the two infinities, or a finite
value (whose arithmetic this development models exactly in `ℚ`). -/
inductive F32 where
  | nan : F32
  | posInf : F32
  | negInf : F32
  | fin : ℚ → F32
deriving DecidableEq

/-- The `f32` comparison `x < 0.0`: false on NaN, true exactly on negative
values (and on negative infinity). -/
def F32.isNeg : F32 → Bool
  | .nan => false
  | .posInf => false
  | .negInf => true
  | .fin q => decide (q < 0)

/-- The value `usize::MAX` on a 64-bit target. -/
def usizeMax : ℕ := 2 ^ 64 - 1

/-- Expression `x.round() as usize` on an arbitrary `f32`: `round` is half-away-from-zero
and the `as` cast saturates — NaN casts to 0, negative results clamp to 0,
positive overflow clamps to `usize::MAX`. -/
def F32.roundToUsize : F32 → ℕ
  | .nan => 0
  | .posInf => usizeMax
  | .negInf => 0
  | .fin q => if q < 0 then (-⌊-q + 1 / 2⌋).toNat.min usizeMax
              else (⌊q + 1 / 2⌋).toNat.min usizeMax

/-- Method `BufImage::get` over arbitrary `f32` coordinates, with the four raster
reads `self.data[idx] ..= self.data[idx + 3]` kept explicit: `none` would mean
an out-of-bounds index (a panic in Rust). -/
def BufImage.getF (img : BufImage) (x y : F32) : Option Pixel :=
  if x.isNeg || y.isNeg then some Pixel.transparentBlack
  else
    let xr := x.roundToUsize
    let yr := y.roundToUsize
    if img.width ≤ xr ∨ img.height ≤ yr then some Pixel.transparentBlack
    else
      let idx := (yr * img.width + xr) * 4
      match img.data[idx]?, img.data[idx + 1]?,
            img.data[idx + 2]?, img.data[idx + 3]? with
      | some r, some g, some b, some a =>
          some ⟨byteToChannel r, byteToChannel g, byteToChannel b, byteToChannel a⟩
      | _, _, _, _ => none

/-- Truncation toward zero of a rational, as the `f32` → integer `as` cast
truncates before saturating. -/
def truncQ (v : ℚ) : ℤ := if 0 ≤ v then ⌊v⌋ else -⌊-v⌋

/-- Cast `v as u8` on a finite value: truncate toward zero, saturate into
`[0, 255]`. -/
def asU8 (v : ℚ) : ℕ := (max (truncQ v) 0).toNat.min 255

/-- Cast `v as u8` on an arbitrary `f32` value: NaN casts to 0, infinities saturate. -/
def F32.asU8F : F32 → ℕ
  | .nan => 0
  | .posInf => 255
  | .negInf => 0
  | .fin q => asU8 q

/-- Method `Image::render` (`lib.rs` lines 41-54): sample each integer coordinate of
`[0, width) × [0, height)` in row-major order and emit the four channel bytes
`(pixel.c * 255.0) as u8`.  The source writes each group of four bytes at
`idx = (y * width + x) * 4` into a zero-initialized buffer, visiting every
index exactly once; flattening the two loops produces the same buffer. -/
def Image.render (image : ImageFn) (width height : ℕ) : List ℕ :=
  (List.range height).flatMap fun y =>
    (List.range width).flatMap fun x =>
      let pixel := image (x : ℚ) (y : ℚ)
      [asU8 (pixel.r * 255), asU8 (pixel.g * 255), asU8 (pixel.b * 255), asU8 (pixel.a * 255)]

/-- The identity matrix. -/
def Mat3.id : Mat3 := ⟨1, 0, 0, 0, 1, 0, 0, 0, 1⟩

/-- Modelled from the spec: "round-to-nearest" conversion of a normalized
channel value to a byte — the nearest integer to `channel * 255`
(stated with half rounding up; the counterexample below is not a tie, so the
tie-breaking rule is irrelevant there). -/
def roundNearestByte (v : ℚ) : ℕ := (⌊v * 255 + 1 / 2⌋).toNat

/-- C1: inverting a matrix whose determinant is zero yields the all-zero
matrix (no fault), and a `Transform` node built from such a matrix maps every
output coordinate to `(0, 0)` and therefore returns the child's pixel at the
origin — not necessarily the transparent pixel.  This is the amended form of
the claim: the original "always returns (0,0,0,0)" is refuted by
`degenerate_transform_not_transparent` below. -/
theorem invert_singular_samples_origin (m : Mat3) (h : m.det = 0)
    (f : ImageFn) (x y : ℚ) :
    invert m = Mat3.zero ∧ Image.transform f m x y = f 0 0 := by
  have hz : invert m = Mat3.zero := by
    unfold invert
    rw [if_pos]
    exact h
  refine ⟨hz, ?_⟩
  simp only [Image.transform, Transform.get, Transform.transform, hz, Mat3.zero]
  norm_num

/-- Witness for C1's amended theorem: the all-ones matrix is singular, and the
transform it builds over the source `fun a b => ⟨a, b, 0, 1⟩` samples that
source at the origin. -/
theorem invert_singular_samples_origin_witness :
    invert ⟨1, 1, 1, 1, 1, 1, 1, 1, 1⟩ = Mat3.zero ∧
      Image.transform (fun a b => ⟨a, b, 0, 1⟩) ⟨1, 1, 1, 1, 1, 1, 1, 1, 1⟩ 3 4
        = ⟨0, 0, 0, 1⟩ :=
  invert_singular_samples_origin ⟨1, 1, 1, 1, 1, 1, 1, 1, 1⟩ (by norm_num [Mat3.det])
    (fun a b => ⟨a, b, 0, 1⟩) 3 4

/-- C1 counterexample: the all-ones matrix has determinant 0, yet a `Transform`
node built from it over an opaque red `Uniform` child returns opaque red at
`(3, 4)`, not the fully transparent pixel claimed. -/
theorem degenerate_transform_not_transparent :
    Mat3.det ⟨1, 1, 1, 1, 1, 1, 1, 1, 1⟩ = 0 ∧
      Image.transform (Uniform.get ⟨1, 0, 0, 1⟩) ⟨1, 1, 1, 1, 1, 1, 1, 1, 1⟩ 3 4
        ≠ Pixel.transparentBlack := by
  have hz : invert ⟨1, 1, 1, 1, 1, 1, 1, 1, 1⟩ = Mat3.zero := by
    norm_num [invert]
  constructor
  · norm_num [Mat3.det]
  · simp [Image.transform, Transform.get, Transform.transform, hz, Mat3.zero,
      Uniform.get, Pixel.transparentBlack]

/-- C8: wrapping any source in a `Transform` with the identity matrix is a
no-op — the identity inverts to itself and the coordinate map fixes `(x, y)`. -/
theorem transform_identity_noop (f : ImageFn) (x y : ℚ) :
    Image.transform f Mat3.id x y = f x y := by
  have h : invert Mat3.id = Mat3.id := by norm_num [invert, Mat3.id]
  simp only [Image.transform, Transform.get, Transform.transform, h]
  norm_num [Mat3.id]

/-- C6: the `Transform` node stores the inverse of the construction matrix:
the half-scale matrix inverts to the double-scale matrix, and for every buffer
image the transformed source sampled at `(10, 10)` equals the original buffer
sampled at `(20, 20)`. -/
theorem transform_scale_half_samples_double :
    invert ⟨1/2, 0, 0, 0, 1/2, 0, 0, 0, 1⟩ = ⟨2, 0, 0, 0, 2, 0, 0, 0, 1⟩ ∧
      ∀ (img : BufImage),
        Image.transform img.get ⟨1/2, 0, 0, 0, 1/2, 0, 0, 0, 1⟩ 10 10
          = img.get 20 20 := by
  have h : invert ⟨1/2, 0, 0, 0, 1/2, 0, 0, 0, 1⟩ = ⟨2, 0, 0, 0, 2, 0, 0, 0, 1⟩ := by
    norm_num [invert]
  refine ⟨h, fun img => ?_⟩
  simp only [Image.transform, Transform.get, Transform.transform, h]
  norm_num

/-- C4: `Join(bottom, top).get` samples `pb = bottom.get(x,y)` and
`pt = top.get(x,y)`, computes `a = pt.a + pb.a * (1 - pt.a)`; if `a = 0` it
returns the fully transparent black pixel, otherwise each color channel is
`(pt.c * pt.a + pb.c * pb.a * (1 - pt.a)) / a` and the alpha is `a`. -/
theorem join_get_formula (bottom top : ImageFn) (x y : ℚ) :
    ((top x y).a + (bottom x y).a * (1 - (top x y).a) = 0 →
      Join.get bottom top x y = Pixel.transparentBlack) ∧
    ((top x y).a + (bottom x y).a * (1 - (top x y).a) ≠ 0 →
      Join.get bottom top x y =
        ⟨((top x y).r * (top x y).a + (bottom x y).r * (bottom x y).a * (1 - (top x y).a))
            / ((top x y).a + (bottom x y).a * (1 - (top x y).a)),
         ((top x y).g * (top x y).a + (bottom x y).g * (bottom x y).a * (1 - (top x y).a))
            / ((top x y).a + (bottom x y).a * (1 - (top x y).a)),
         ((top x y).b * (top x y).a + (bottom x y).b * (bottom x y).a * (1 - (top x y).a))
            / ((top x y).a + (bottom x y).a * (1 - (top x y).a)),
         (top x y).a + (bottom x y).a * (1 - (top x y).a)⟩) := by
  constructor
  · intro h
    simp [Join.get, h]
  · intro h
    simp [Join.get, h]

/-- Witness for C4: an opaque red bottom under a half-transparent green top at
`(0, 0)` takes the nonzero-alpha branch of the join formula. -/
theorem join_get_formula_witness :
    (((Uniform.get ⟨0, 1, 0, 1/2⟩) 0 0).a
        + ((Uniform.get ⟨1, 0, 0, 1⟩) 0 0).a * (1 - ((Uniform.get ⟨0, 1, 0, 1/2⟩) 0 0).a) ≠ 0) ∧
      Join.get (Uniform.get ⟨1, 0, 0, 1⟩) (Uniform.get ⟨0, 1, 0, 1/2⟩) 0 0 =
        ⟨(0 * (1/2) + 1 * 1 * (1 - 1/2)) / (1/2 + 1 * (1 - 1/2)),
         (1 * (1/2) + 0 * 1 * (1 - 1/2)) / (1/2 + 1 * (1 - 1/2)),
         (0 * (1/2) + 0 * 1 * (1 - 1/2)) / (1/2 + 1 * (1 - 1/2)),
         1/2 + 1 * (1 - 1/2)⟩ := by
  have h := (join_get_formula (Uniform.get ⟨1, 0, 0, 1⟩) (Uniform.get ⟨0, 1, 0, 1/2⟩) 0 0).2
  refine ⟨by norm_num [Uniform.get], ?_⟩
  rw [h (by norm_num [Uniform.get])]
  norm_num [Uniform.get]

/-- C3 (amended): if the top source has alpha 0 at every coordinate, the join
equals the bottom source wherever the bottom's alpha is nonzero; where the
bottom's alpha is 0 the join returns the fully transparent black pixel (which
differs from the bottom's pixel when its color channels are nonzero — see the
counterexample). -/
theorem join_transparent_top_eq_bottom (bottom top : ImageFn)
    (htop : ∀ a b, (top a b).a = 0) (x y : ℚ) :
    ((bottom x y).a ≠ 0 → Join.get bottom top x y = bottom x y) ∧
    ((bottom x y).a = 0 → Join.get bottom top x y = Pixel.transparentBlack) := by
  have ht : (top x y).a = 0 := htop x y
  constructor
  · intro hb
    simp only [Join.get, ht]
    rw [if_neg (by simpa using hb)]
    have hr : ∀ v1 v2 : ℚ, (v2 * (top x y).a + v1 * (bottom x y).a * (1 - (top x y).a))
        / ((top x y).a + (bottom x y).a * (1 - (top x y).a)) = v1 := by
      intro v1 v2
      rw [ht]
      field_simp
    have hbx := hr (bottom x y).r (top x y).r
    have hgx := hr (bottom x y).g (top x y).g
    have hbb := hr (bottom x y).b (top x y).b
    simp only [ht] at hbx hgx hbb ⊢
    rw [hbx, hgx, hbb]
    simp
  · intro hb
    simp [Join.get, ht, hb]

/-- Witness for C3's amended theorem: an opaque bottom under an everywhere
transparent top passes through unchanged at `(0, 0)`. -/
theorem join_transparent_top_eq_bottom_witness :
    Join.get (Uniform.get ⟨1/2, 1/3, 1/4, 1⟩) (Uniform.get ⟨0, 0, 0, 0⟩) 0 0
      = Uniform.get ⟨1/2, 1/3, 1/4, 1⟩ 0 0 :=
  (join_transparent_top_eq_bottom (Uniform.get ⟨1/2, 1/3, 1/4, 1⟩)
    (Uniform.get ⟨0, 0, 0, 0⟩) (fun _ _ => rfl) 0 0).1 (by norm_num [Uniform.get])

/-- C3 counterexample: with a bottom source that is transparent red
(`a = 0`, `r = 1`) and a top source that is transparent everywhere, the join
returns transparent black, which differs from the bottom's pixel — refuting
"identical to `bottom.get` for all coordinates" for every bottom source. -/
theorem join_transparent_top_counterexample :
    Join.get (Uniform.get ⟨1, 0, 0, 0⟩) (Uniform.get ⟨0, 0, 0, 0⟩) 0 0
      ≠ Uniform.get ⟨1, 0, 0, 0⟩ 0 0 := by
  simp [Join.get, Uniform.get, Pixel.transparentBlack]

/-- Rounding a whole-number coordinate is the identity. -/
theorem roundToCell_natCast (n : ℕ) : roundToCell (n : ℚ) = n := by
  have h : ⌊(n : ℚ) + 1 / 2⌋ = (n : ℤ) := by
    rw [Int.floor_eq_iff]
    constructor
    · push_cast
      linarith
    · push_cast
      linarith
  rw [roundToCell, h]
  simp

/-- Rounding a coordinate with fractional part exactly one half selects the
next cell up. -/
theorem roundToCell_half (i : ℕ) : roundToCell ((i : ℚ) + 1 / 2) = i + 1 := by
  have h : ⌊(i : ℚ) + 1 / 2 + 1 / 2⌋ = ((i : ℕ) : ℤ) + 1 := by
    have : (i : ℚ) + 1 / 2 + 1 / 2 = ((i : ℤ) + 1 : ℤ) := by push_cast; ring
    rw [this, Int.floor_intCast]
  simp only [roundToCell, h]
  omega

/-- C7: `BufImage::get` returns transparent black for negative coordinates,
rounds non-negative coordinates to the nearest cell, returns transparent black
when the rounded cell is outside `[0, width) × [0, height)`, and otherwise
returns the stored pixel of that cell; in particular sampling at `(-1, 5)`,
`(width, 0)` and `(0, height)` yields transparent black. -/
theorem bufImage_get_spec (img : BufImage) (x y : ℚ) :
    ((x < 0 ∨ y < 0) → img.get x y = Pixel.transparentBlack) ∧
    (0 ≤ x → 0 ≤ y → (img.width ≤ roundToCell x ∨ img.height ≤ roundToCell y) →
      img.get x y = Pixel.transparentBlack) ∧
    (0 ≤ x → 0 ≤ y → roundToCell x < img.width → roundToCell y < img.height →
      img.get x y = img.pixelAt (roundToCell x) (roundToCell y)) ∧
    img.get (-1) 5 = Pixel.transparentBlack ∧
    img.get (img.width : ℚ) 0 = Pixel.transparentBlack ∧
    img.get 0 (img.height : ℚ) = Pixel.transparentBlack := by
  refine ⟨fun h => ?_, fun hx hy hout => ?_, fun hx hy hxin hyin => ?_, ?_, ?_, ?_⟩
  · simp only [BufImage.get]
    rw [if_pos h]
  · simp only [BufImage.get]
    rw [if_neg (by push_neg; exact ⟨hx, hy⟩), if_pos hout]
  · simp only [BufImage.get]
    rw [if_neg (by push_neg; exact ⟨hx, hy⟩),
      if_neg (by push_neg; exact ⟨hxin, hyin⟩)]
  · simp only [BufImage.get]
    rw [if_pos (Or.inl (by norm_num))]
  · simp only [BufImage.get]
    rw [if_neg (by push_neg; exact ⟨by positivity, le_refl 0⟩),
      if_pos (Or.inl (le_of_eq (roundToCell_natCast img.width).symm))]
  · simp only [BufImage.get]
    rw [if_neg (by push_neg; exact ⟨le_refl 0, by positivity⟩),
      if_pos (Or.inr (le_of_eq (roundToCell_natCast img.height).symm))]

/-- Witness for C7: on a concrete 1×1 image, sampling at `(-1, 5)` yields
transparent black through the first clause of the specification. -/
theorem bufImage_get_spec_witness :
    BufImage.get ⟨[9, 9, 9, 9], 1, 1⟩ (-1) 5 = Pixel.transparentBlack :=
  (bufImage_get_spec ⟨[9, 9, 9, 9], 1, 1⟩ (-1) 5).1 (Or.inl (by norm_num))

/-- C9: the nearest-neighbor rounding policy is round-half-away-from-zero — at
an in-bounds non-negative coordinate whose fractional part is exactly one
half, the cell with the larger index is selected. -/
theorem bufImage_get_half_rounds_up (img : BufImage) (i j : ℕ)
    (hi : i + 1 < img.width) (hj : j < img.height) :
    img.get ((i : ℚ) + 1 / 2) (j : ℚ) = img.pixelAt (i + 1) j := by
  simp only [BufImage.get]
  rw [if_neg (by push_neg; constructor <;> positivity),
    roundToCell_half, roundToCell_natCast,
    if_neg (by push_neg; exact ⟨hi, hj⟩)]

/-- Witness for C9: on a concrete 2×1 image whose two cells hold different
bytes, sampling at `(0.5, 0)` reads cell `(1, 0)`. -/
theorem bufImage_get_half_rounds_up_witness :
    BufImage.get ⟨[10, 20, 30, 40, 50, 60, 70, 80], 2, 1⟩ (((0 : ℕ) : ℚ) + 1 / 2) ((0 : ℕ) : ℚ)
      = BufImage.pixelAt ⟨[10, 20, 30, 40, 50, 60, 70, 80], 2, 1⟩ (0 + 1) 0 :=
  bufImage_get_half_rounds_up ⟨[10, 20, 30, 40, 50, 60, 70, 80], 2, 1⟩ 0 0
    (by norm_num) (by norm_num)

/-- C5: under the construction invariant (`width * height * 4` data bytes),
`BufImage::get` never indexes out of bounds for any `f32` coordinates — NaN,
infinite, negative or arbitrarily large — and so always returns a defined
pixel.  (The other source variants — `Uniform`, `Transform`, `Join` — are
total functions of their coordinates by construction in this embedding, so
`BufImage`'s raster indexing is the one place a panic could occur.) -/
theorem bufImage_getF_total (img : BufImage) (h : img.wf) (x y : F32) :
    (img.getF x y).isSome = true := by
  simp only [BufImage.getF]
  by_cases hneg : (x.isNeg || y.isNeg) = true
  · rw [if_pos hneg]
    rfl
  · rw [if_neg hneg]
    by_cases hout : img.width ≤ x.roundToUsize ∨ img.height ≤ y.roundToUsize
    · rw [if_pos hout]
      rfl
    · rw [if_neg hout]
      push_neg at hout
      obtain ⟨hxw, hyh⟩ := hout
      have hk : y.roundToUsize * img.width + x.roundToUsize + 1
          ≤ img.width * img.height := by
        calc y.roundToUsize * img.width + x.roundToUsize + 1
            ≤ y.roundToUsize * img.width + img.width := by omega
          _ = (y.roundToUsize + 1) * img.width := by ring
          _ ≤ img.height * img.width := Nat.mul_le_mul_right _ (by omega)
          _ = img.width * img.height := Nat.mul_comm _ _
      have hidx : (y.roundToUsize * img.width + x.roundToUsize) * 4 + 3
          < img.data.length := by
        rw [BufImage.wf] at h
        rw [h]
        have h4 := Nat.mul_le_mul_right 4 hk
        linarith [h4]
      have e0 := List.getElem?_eq_getElem
        (l := img.data) (n := (y.roundToUsize * img.width + x.roundToUsize) * 4)
        (by omega)
      have e1 := List.getElem?_eq_getElem
        (l := img.data) (n := (y.roundToUsize * img.width + x.roundToUsize) * 4 + 1)
        (by omega)
      have e2 := List.getElem?_eq_getElem
        (l := img.data) (n := (y.roundToUsize * img.width + x.roundToUsize) * 4 + 2)
        (by omega)
      have e3 := List.getElem?_eq_getElem
        (l := img.data) (n := (y.roundToUsize * img.width + x.roundToUsize) * 4 + 3)
        (by omega)
      rw [e0, e1, e2, e3]
      rfl

/-- Witness for C5: a well-formed 1×1 image sampled at `(NaN, +∞)` produces a
defined pixel. -/
theorem bufImage_getF_total_witness :
    (BufImage.getF ⟨[1, 2, 3, 4], 1, 1⟩ F32.nan F32.posInf).isSome = true :=
  bufImage_getF_total ⟨[1, 2, 3, 4], 1, 1⟩ rfl F32.nan F32.posInf

/-- Flattening a list of constant-length chunks multiplies the length. -/
theorem flatMap_length_const {α β : Type} (f : α → List β) (c : ℕ)
    (hf : ∀ a, (f a).length = c) (l : List α) :
    (l.flatMap f).length = l.length * c := by
  induction l with
  | nil => simp
  | cons a t ih =>
    simp only [List.flatMap_cons, List.length_append, List.length_cons, ih, hf,
      Nat.succ_mul]
    ring

/-- Position `i * c + j` of a flattened list of constant-length-`c` chunks is
position `j` of chunk `i`. -/
theorem flatMap_getElem_const {α β : Type} (f : α → List β) (c : ℕ)
    (hf : ∀ a, (f a).length = c) (l : List α) (i j : ℕ) (hj : j < c)
    (hi : i < l.length) :
    (l.flatMap f)[i * c + j]? = (f (l.get ⟨i, hi⟩))[j]? := by
  induction l generalizing i with
  | nil => simp at hi
  | cons a t ih =>
    cases i with
    | zero =>
      have hlt : 0 * c + j < (f a).length := by simpa [hf] using hj
      simp only [List.flatMap_cons]
      rw [List.getElem?_append_left hlt]
      simp
    | succ i =>
      have hi2 : i < t.length := by simpa using hi
      have hge : (f a).length ≤ (i + 1) * c + j := by
        simp only [hf, Nat.succ_mul]
        omega
      simp only [List.flatMap_cons]
      rw [List.getElem?_append_right hge]
      have hsub : (i + 1) * c + j - (f a).length = i * c + j := by
        simp only [hf, Nat.succ_mul]
        omega
      rw [hsub]
      exact ih i hi2

/-- The four bytes that `render` emits for one sampled pixel. -/
def pixelBytes (p : Pixel) : List ℕ :=
  [asU8 (p.r * 255), asU8 (p.g * 255), asU8 (p.b * 255), asU8 (p.a * 255)]

/-- The renderer written with the per-pixel chunk named. -/
theorem render_eq_flatMap (image : ImageFn) (width height : ℕ) :
    Image.render image width height =
      (List.range height).flatMap fun y =>
        (List.range width).flatMap fun x =>
          pixelBytes (image (x : ℚ) (y : ℚ)) := rfl

/-- A row of output has `width * 4` bytes. -/
theorem render_row_length (image : ImageFn) (width : ℕ) (y : ℕ) :
    ((List.range width).flatMap fun x =>
      pixelBytes (image (x : ℚ) (y : ℚ))).length = width * 4 := by
  have := flatMap_length_const
    (fun x : ℕ => pixelBytes (image (x : ℚ) (y : ℚ))) 4 (fun _ => rfl)
    (List.range width)
  simpa using this

/-- The byte at flat position `(y * width + x) * 4 + k` of the rendered buffer
(`k < 4`) is byte `k` of the pixel sampled at `(x, y)`. -/
theorem render_entry (image : ImageFn) (width height x y k : ℕ)
    (hx : x < width) (hy : y < height) (hk : k < 4) :
    (Image.render image width height)[(y * width + x) * 4 + k]? =
      (pixelBytes (image (x : ℚ) (y : ℚ)))[k]? := by
  rw [render_eq_flatMap]
  have hidx : (y * width + x) * 4 + k = y * (width * 4) + (x * 4 + k) := by ring
  rw [hidx]
  have hy2 : y < (List.range height).length := by simpa using hy
  rw [flatMap_getElem_const _ (width * 4)
    (fun a => render_row_length image width a) (List.range height) y (x * 4 + k)
    (by omega) hy2]
  have hget : (List.range height).get ⟨y, hy2⟩ = y := by
    simp [List.get_eq_getElem, List.getElem_range]
  rw [hget]
  have hx2 : x < (List.range width).length := by simpa using hx
  rw [flatMap_getElem_const (fun v : ℕ => pixelBytes (image (v : ℚ) (y : ℚ))) 4
    (fun _ => rfl) (List.range width) x k hk hx2]
  have hgetx : (List.range width).get ⟨x, hx2⟩ = x := by
    simp [List.get_eq_getElem, List.getElem_range]
  rw [hgetx]

/-- C2 (amended): `render` places, row-major at index `(y * width + x) * 4`,
the four channel bytes of the pixel sampled at `(x, y)`, each converted by the
saturating truncation cast `(channel * 255.0) as u8` — not by round-to-nearest
(see the counterexample). -/
theorem render_places_truncated_bytes (image : ImageFn) (width height x y : ℕ)
    (hx : x < width) (hy : y < height) :
    (Image.render image width height)[(y * width + x) * 4]?
        = some (asU8 ((image (x : ℚ) (y : ℚ)).r * 255)) ∧
      (Image.render image width height)[(y * width + x) * 4 + 1]?
        = some (asU8 ((image (x : ℚ) (y : ℚ)).g * 255)) ∧
      (Image.render image width height)[(y * width + x) * 4 + 2]?
        = some (asU8 ((image (x : ℚ) (y : ℚ)).b * 255)) ∧
      (Image.render image width height)[(y * width + x) * 4 + 3]?
        = some (asU8 ((image (x : ℚ) (y : ℚ)).a * 255)) := by
  have h0 := render_entry image width height x y 0 hx hy (by omega)
  have h1 := render_entry image width height x y 1 hx hy (by omega)
  have h2 := render_entry image width height x y 2 hx hy (by omega)
  have h3 := render_entry image width height x y 3 hx hy (by omega)
  simp only [Nat.add_zero] at h0
  exact ⟨h0, h1, h2, h3⟩

/-- Witness for C2's amended theorem: a 1×1 render of an opaque uniform color
with red channel 1 emits the red byte 255 at index 0. -/
theorem render_places_truncated_bytes_witness :
    (Image.render (Uniform.get ⟨1, 0, 0, 1⟩) 1 1)[0]? = some 255 := by
  have h := (render_places_truncated_bytes (Uniform.get ⟨1, 0, 0, 1⟩) 1 1 0 0
    (by norm_num) (by norm_num)).1
  norm_num [Uniform.get, asU8, truncQ] at h
  exact h

/-- C2 counterexample: rendering a 1×1 image whose red channel is `0.999`
emits the byte 254 (truncation of `254.745`), while round-to-nearest of
`0.999 * 255` is 255 — so the conversion is not round-to-nearest. -/
theorem render_not_round_to_nearest :
    (Image.render (Uniform.get ⟨999/1000, 0, 0, 1⟩) 1 1)[0]? = some 254 ∧
      roundNearestByte (999/1000) = 255 := by
  constructor
  · show ((List.range 1).flatMap fun y =>
      (List.range 1).flatMap fun x =>
        pixelBytes (Uniform.get ⟨999/1000, 0, 0, 1⟩ (x : ℚ) (y : ℚ)))[0]? = some 254
    norm_num [List.range_succ, Uniform.get, pixelBytes, asU8, truncQ]
    rfl
  · norm_num [roundNearestByte]
    rfl

/-- C10: the float-to-byte conversion of `render` saturates instead of
wrapping — the rendered buffer always has exactly `width * height * 4` bytes,
a negative channel value emits byte 0, a channel value at or above `256/255`
emits byte 255, every emitted byte is at most 255, and the cast of NaN is 0. -/
theorem render_cast_saturates :
    (∀ (image : ImageFn) (width height : ℕ),
        (Image.render image width height).length = width * height * 4) ∧
    (∀ v : ℚ, v < 0 → asU8 (v * 255) = 0) ∧
    (∀ v : ℚ, 256 / 255 ≤ v → asU8 (v * 255) = 255) ∧
    (∀ v : ℚ, asU8 (v * 255) ≤ 255) ∧
    F32.asU8F F32.nan = 0 := by
  refine ⟨?_, ?_, ?_, ?_, rfl⟩
  · intro image width height
    rw [render_eq_flatMap]
    rw [flatMap_length_const _ (width * 4)
      (fun a => render_row_length image width a) (List.range height)]
    simp [Nat.mul_comm, Nat.mul_assoc]
    ring
  · intro v hv
    have hneg : ¬ (0 : ℚ) ≤ v * 255 := by nlinarith
    have ht : truncQ (v * 255) ≤ 0 := by
      rw [truncQ, if_neg hneg]
      have : (0 : ℤ) ≤ ⌊-(v * 255)⌋ := Int.floor_nonneg.2 (by nlinarith)
      omega
    simp only [asU8, max_eq_right ht]
    rfl
  · intro v hv
    have hpos : (0 : ℚ) ≤ v * 255 := by nlinarith
    have ht : (256 : ℤ) ≤ truncQ (v * 255) := by
      rw [truncQ, if_pos hpos]
      rw [Int.le_floor]
      push_cast
      nlinarith
    have h0 : (0 : ℤ) ≤ truncQ (v * 255) := le_trans (by norm_num : (0:ℤ) ≤ 256) ht
    simp only [asU8, max_eq_left h0]
    have h3 : 255 ≤ (truncQ (v * 255)).toNat := by omega
    exact min_eq_right h3
  · intro v
    exact Nat.min_le_right _ _

/-- Witness for C10: the channel value `-1` emits byte 0 and the channel value
`2` emits byte 255. -/
theorem render_cast_saturates_witness :
    asU8 ((-1 : ℚ) * 255) = 0 ∧ asU8 ((2 : ℚ) * 255) = 255 :=
  ⟨render_cast_saturates.2.1 (-1) (by norm_num),
   render_cast_saturates.2.2.1 2 (by norm_num)⟩
